import Mathlib

/-!
A shallow embedding, in Lean 4, of the Go AST analysis core of the
`aah` CLI tool (files `ast.go` and `build.go`): the program / package /
type model builder, its import-alias resolution with a process-wide
cache, its type extraction, and the embedding-reachability query that
the build step runs over the resulting model.

Conventions of the embedding:
* Go maps are modelled as association lists (`List (String × α)`) where
  an insertion conses the new binding in front and lookup finds the
  first binding, giving Go's overwrite semantics.  Go's nondeterministic
  map iteration order becomes list order.
* Strings are treated as their character lists; the analyzed paths and
  identifiers are ASCII, so Go's byte indices coincide with character
  indices.
* The external toolchain lookup `go/build.Import` is a function
  parameter `bi : String → String → Option String` (import path and
  source directory to the package's default identifier, `none` on
  failure); the embedding additionally counts how many times it is
  consulted, to state cache-hit properties.
-/

set_option autoImplicit false

namespace AahTool

/-! ## Go map model: association lists with overwrite-on-insert -/

/-- Lookup in a Go-map model: the first binding for the key wins. -/
def mapLookup {α : Type} (m : List (String × α)) (k : String) : Option α :=
  match m with
  | [] => none
  | (k', v) :: rest => if k' = k then some v else mapLookup rest k

/-- Insertion in a Go-map model: the new binding shadows any older one. -/
def mapInsert {α : Type} (m : List (String × α)) (k : String) (v : α) :
    List (String × α) :=
  (k, v) :: m

@[simp] theorem mapLookup_nil {α : Type} (k : String) :
    mapLookup ([] : List (String × α)) k = none := rfl

@[simp] theorem mapLookup_cons {α : Type} (k' k : String) (v : α)
    (m : List (String × α)) :
    mapLookup ((k', v) :: m) k = if k' = k then some v else mapLookup m k := rfl

@[simp] theorem mapLookup_insert_self {α : Type} (m : List (String × α))
    (k : String) (v : α) : mapLookup (mapInsert m k v) k = some v := by
  simp [mapInsert]

theorem mapLookup_insert_ne {α : Type} (m : List (String × α))
    (k k' : String) (v : α) (h : k ≠ k') :
    mapLookup (mapInsert m k v) k' = mapLookup m k' := by
  simp [mapInsert, h]

/-! ## String helpers used by the source

`strIndex` models Go's `strings.Index` (least index of a substring
occurrence, `-1` when absent); `stripQuotes` models the slice
`s[1 : len(s)-1]` that `processImports` applies to the quoted import
path literal. -/

/-- Least index at which `sub` occurs in the list, as `strings.Index` does. -/
def indexOfSub (sub : List Char) : List Char → Option Nat
  | [] => if sub.isPrefixOf ([] : List Char) then some 0 else none
  | c :: t =>
    if sub.isPrefixOf (c :: t) then some 0
    else (indexOfSub sub t).map (· + 1)

/-- Go `strings.Index s sub`: byte index of the first occurrence, `-1` if none. -/
def strIndex (s sub : String) : Int :=
  match indexOfSub sub.toList s.toList with
  | none => -1
  | some n => (n : Int)

/-- Go slice `s[1 : len(s)-1]`, as used to unquote an import path literal. -/
def stripQuotes (s : String) : String :=
  String.mk ((s.toList.drop 1).dropLast)

/-- Go `strings.ToLower` on the ASCII identifiers the tool handles. -/
def strToLower (s : String) : String :=
  String.mk (s.toList.map Char.toLower)

/-! ## `path/filepath.Clean` for slash-separated paths

Go's `filepath.Clean` on a Unix target: repeated separators, `.`
elements and `..` elements are eliminated (a `..` cannot climb above the
root of a rooted path, and is kept at the front of a relative path);
the empty path cleans to `"."`. -/

/-- Split a character list on `'/'` boundaries. -/
def splitOnSlash : List Char → List (List Char)
  | [] => [[]]
  | c :: rest =>
    let r := splitOnSlash rest
    if c = '/' then [] :: r
    else
      match r with
      | [] => [[c]]
      | p :: ps => (c :: p) :: ps

/-- Process path elements with a stack, resolving `.` and `..`. -/
def cleanElems (rooted : Bool) : List (List Char) → List (List Char) →
    List (List Char)
  | [], stack => stack.reverse
  | p :: rest, stack =>
    if p = [] ∨ p = ['.'] then cleanElems rooted rest stack
    else if p = ['.', '.'] then
      match stack with
      | [] =>
        if rooted then cleanElems rooted rest []
        else cleanElems rooted rest [['.', '.']]
      | top :: stack' =>
        if top = ['.', '.'] then cleanElems rooted rest (p :: top :: stack')
        else cleanElems rooted rest stack'
    else cleanElems rooted rest (p :: stack)

/-- Go `path/filepath.Clean` for slash-separated (Unix) paths. -/
def filepathClean (path : String) : String :=
  if path = "" then "."
  else
    let cs := path.toList
    let rooted := cs.head? = some '/'
    let cleaned := cleanElems rooted (splitOnSlash cs) []
    let out := String.intercalate "/" (cleaned.map String.mk)
    if rooted then
      if out = "" then "/" else "/" ++ out
    else
      if out = "" then "." else out

/-! ## The Go AST fragment the tool inspects

Only the node shapes `ast.go` pattern-matches on are distinguished:
identifiers, selector expressions, star (pointer) expressions and
struct type literals; every other expression shape falls into `other`.
A struct field is its list of declared names paired with its type
expression (an embedded field has an empty name list, matching
`field.Names == nil`). -/

inductive Expr where
  | ident (name : String)
  | selector (x : Expr) (sel : String)
  | star (x : Expr)
  | structType (fields : List (List String × Expr))
  | other

/-- A `type` specification: declared name and underlying type expression. -/
structure TypeSpec where
  name : String
  type : Expr

/-- An `import` specification: optional explicit alias and the quoted
path literal of the import (`spec.Path.Value` keeps its surrounding
quotes in the Go AST, and `processImports` strips them). -/
structure ImportSpec where
  name : Option String
  pathValue : String
deriving Repr, DecidableEq

/-- A top-level declaration, as far as `Process` distinguishes them:
an `import` block (`token.IMPORT`), a `type` block (`token.TYPE`), or
anything else. -/
inductive Decl where
  | importDecl (specs : List ImportSpec)
  | typeDecl (specs : List TypeSpec)
  | otherDecl

/-- A parsed source file: its top-level declarations. -/
structure GoFile where
  decls : List Decl

/-- `ast.Package`: declared package identifier and the parsed files
(file name to file), as produced by `parser.ParseDir`. -/
structure AstPackage where
  name : String
  files : List (String × GoFile)

/-- `typeInfo` of `ast.go`: declared name, owning package, and the
embedded-type records.  The Go struct is recursive
(`EmbeddedTypes []*typeInfo`), hence an inductive type here. -/
inductive TypeInfo where
  | mk (Name : String) (Package : String) (EmbeddedTypes : List TypeInfo)

def TypeInfo.Name : TypeInfo → String
  | .mk n _ _ => n

def TypeInfo.Package : TypeInfo → String
  | .mk _ p _ => p

def TypeInfo.EmbeddedTypes : TypeInfo → List TypeInfo
  | .mk _ _ e => e

/-- `packageInfo` of `ast.go` (the `Fset` token bookkeeping is elided:
no analyzed behavior reads it). -/
structure PackageInfo where
  Pkg : AstPackage
  Types : List (String × TypeInfo)
  Path : String
  FilePath : String
  Files : List String

/-- `program` of `ast.go`: root path and discovered packages. -/
structure Program where
  Path : String
  Packages : List PackageInfo

/-! ## `findPkgAndTypeName` -/

/-- The star-unwrapping loop at the head of `findPkgAndTypeName`:
peel `*ast.StarExpr` wrappers until another node shape appears. -/
def stripStars : Expr → Expr
  | .star x => stripStars x
  | .ident n => .ident n
  | .selector x s => .selector x s
  | .structType fs => .structType fs
  | .other => .other

/-- `findPkgAndTypeName` of `ast.go`: after unwrapping stars, a bare
identifier is a same-package reference `("", name)`; a selector whose
receiver is an identifier is a cross-package reference `(pkg, name)`;
anything else yields `("", "")`. -/
def findPkgAndTypeName (fieldType : Expr) : String × String :=
  match stripStars fieldType with
  | .ident name => ("", name)
  | .selector (.ident pkgName) sel => (pkgName, sel)
  | _ => ("", "")

/-- `n`-fold pointer indirection around an expression. -/
def wrapStars : Nat → Expr → Expr
  | 0, e => e
  | n + 1, e => .star (wrapStars n e)

theorem stripStars_wrapStars (n : Nat) (e : Expr) :
    stripStars (wrapStars n e) = stripStars e := by
  induction n with
  | zero => rfl
  | succ n ih => simpa [wrapStars, stripStars] using ih

/-- C5: For every anonymous struct field, classifying its type
expression after wrapping it in any number of pointer-indirection
(star) wrappers yields the same (package-alias, type-name) pair as
classifying the unwrapped expression: pointer embedding and value
embedding are extracted identically. -/
theorem findPkgAndTypeName_wrapStars (n : Nat) (e : Expr) :
    findPkgAndTypeName (wrapStars n e) = findPkgAndTypeName e := by
  unfold findPkgAndTypeName
  rw [stripStars_wrapStars]

/-! ## `validatePkgAndGet`

Errors built with `fmt.Errorf` are modelled as structured values
carrying exactly the data interpolated into the Go message. -/

/-- The error values `ast.go` can produce. -/
inductive LoadError where
  | pathRequired
  | pathNotExists (path : String)
  | parseFailure (path : String)
  | multiplePackages (names : List String) (path : String)

/-- `validatePkgAndGet` of `ast.go`: zero parsed packages is the
"nothing" outcome `(none, none)`; more than one is an error naming all
the map's keys (the distinct package identifiers) and the directory;
exactly one yields a fresh `packageInfo` holding that package. -/
def validatePkgAndGet (pkgs : List (String × AstPackage)) (path : String) :
    Option PackageInfo × Option LoadError :=
  match pkgs with
  | [] => (none, none)
  | [(_, v)] =>
    (some { Pkg := v, Types := [], Path := "", FilePath := "", Files := [] },
     none)
  | _ =>
    (none, some (LoadError.multiplePackages (pkgs.map Prod.fst) path))

/-- C6: a directory whose parse produces zero source packages yields no
Package Model and no error (the "nothing" outcome), rather than
failing. -/
theorem validatePkgAndGet_empty (path : String) :
    validatePkgAndGet [] path = (none, none) := rfl

/-- C2: a directory whose parsed files declare two or more distinct
package identifiers yields no Package Model, and an error that names
every distinct identifier found together with the offending directory
path. -/
theorem validatePkgAndGet_multiple (pkgs : List (String × AstPackage))
    (path : String) (h2 : 2 ≤ pkgs.length) :
    ∃ names,
      validatePkgAndGet pkgs path
        = (none, some (LoadError.multiplePackages names path)) ∧
      (∀ n, n ∈ pkgs.map Prod.fst ↔ n ∈ names) := by
  match pkgs with
  | [] => simp at h2
  | [_] => simp at h2
  | a :: b :: rest =>
    exact ⟨(a :: b :: rest).map Prod.fst, rfl, fun n => Iff.rfl⟩

/-- Witness for C2 at a concrete two-package directory. -/
theorem validatePkgAndGet_multiple_witness :
    2 ≤ [("alpha", AstPackage.mk "alpha" []), ("beta", AstPackage.mk "beta" [])].length ∧
    ∃ names,
      validatePkgAndGet
          [("alpha", AstPackage.mk "alpha" []), ("beta", AstPackage.mk "beta" [])]
          "/tmp/dir"
        = (none, some (LoadError.multiplePackages names "/tmp/dir")) ∧
      (∀ n,
        n ∈ [("alpha", AstPackage.mk "alpha" []),
             ("beta", AstPackage.mk "beta" [])].map Prod.fst ↔ n ∈ names) :=
  ⟨by decide,
   validatePkgAndGet_multiple
     [("alpha", AstPackage.mk "alpha" []), ("beta", AstPackage.mk "beta" [])]
     "/tmp/dir" (by decide)⟩

/-! ## Import resolution (`processImports`) and the build-import cache

`buildImportCache` is the process-wide map from import path to the
package identifier discovered by `go/build.Import`; `lookups` counts
how many times the external toolchain was consulted. -/

structure ResolveState where
  buildImportCache : List (String × String)
  lookups : Nat

/-- One iteration of the `processImports` loop for a single import
specification: the blank alias `_` is skipped; an explicit alias is
used verbatim; otherwise the cache is consulted by import path, and on
a miss `build.Import` is invoked (counted in `lookups`) and, on
success, the discovered identifier is cached.  Returns the updated
state and the `(alias, importPath)` binding added to the file's import
map, if any. -/
def resolveImportSpec (bi : String → String → Option String)
    (filePath : String) (st : ResolveState) (spec : ImportSpec) :
    ResolveState × Option (String × String) :=
  match spec.name with
  | some n =>
    if n = "_" then (st, none)
    else (st, some (n, stripQuotes spec.pathValue))
  | none =>
    let importPath := stripQuotes spec.pathValue
    match mapLookup st.buildImportCache importPath with
    | some cached => (st, some (cached, importPath))
    | none =>
      match bi importPath filePath with
      | none => ({ st with lookups := st.lookups + 1 }, none)
      | some pkgName =>
        ({ buildImportCache := mapInsert st.buildImportCache importPath pkgName,
           lookups := st.lookups + 1 },
         some (pkgName, importPath))

/-- `processImports` of `ast.go`: fold the loop over the
declaration's import specifications, building the file's
alias-to-import-path map. -/
def processImports (bi : String → String → Option String)
    (filePath : String) (st : ResolveState) (specs : List ImportSpec) :
    ResolveState × List (String × String) :=
  match specs with
  | [] => (st, [])
  | spec :: rest =>
    match resolveImportSpec bi filePath st spec with
    | (st', none) => processImports bi filePath st' rest
    | (st', some (a, p)) =>
      let r := processImports bi filePath st' rest
      (r.1, mapInsert r.2 a p)

/-- C4: resolving the same import path without an explicit alias a
second time (from any file) returns the same package identifier as the
first resolution and performs no second external lookup: the first
resolution (a cache miss followed by one successful `build.Import`
call) stores the identifier in the import-alias cache, and the second
reads it from the cache. -/
theorem import_resolution_idempotent (bi : String → String → Option String)
    (fp1 fp2 pv pkgName : String) (st0 : ResolveState)
    (hmiss : mapLookup st0.buildImportCache (stripQuotes pv) = none)
    (hbi : bi (stripQuotes pv) fp1 = some pkgName) :
    (resolveImportSpec bi fp1 st0 ⟨none, pv⟩).2
      = some (pkgName, stripQuotes pv) ∧
    (resolveImportSpec bi fp2 (resolveImportSpec bi fp1 st0 ⟨none, pv⟩).1
        ⟨none, pv⟩).2
      = some (pkgName, stripQuotes pv) ∧
    (resolveImportSpec bi fp1 st0 ⟨none, pv⟩).1.lookups = st0.lookups + 1 ∧
    (resolveImportSpec bi fp2 (resolveImportSpec bi fp1 st0 ⟨none, pv⟩).1
        ⟨none, pv⟩).1.lookups
      = (resolveImportSpec bi fp1 st0 ⟨none, pv⟩).1.lookups := by
  simp only [resolveImportSpec, hmiss, hbi]
  simp

/-- Witness for C4: a concrete cache-missing state and lookup oracle. -/
theorem import_resolution_idempotent_witness :
    (mapLookup (ResolveState.mk [] 0).buildImportCache
        (stripQuotes "\"aah/framework\"") = none ∧
     (fun p (_ : String) => if p = "aah/framework" then some "aah" else none)
        (stripQuotes "\"aah/framework\"") "/src/a" = some "aah") ∧
    (resolveImportSpec
        (fun p (_ : String) => if p = "aah/framework" then some "aah" else none)
        "/src/a" (ResolveState.mk [] 0) ⟨none, "\"aah/framework\""⟩).2
      = some ("aah", stripQuotes "\"aah/framework\"") :=
  ⟨⟨by decide, by decide⟩,
   (import_resolution_idempotent
     (fun p (_ : String) => if p = "aah/framework" then some "aah" else none)
     "/src/a" "/src/b" "\"aah/framework\"" "aah" (ResolveState.mk [] 0)
     (by decide) (by decide)).1⟩

/-! ## Type extraction (`processTypes`) -/

/-- The record `processTypes` builds for `decl.Specs[0]`.  In the
source, when the spec's type is a struct the loop inspects each
anonymous field (`field.Names` empty) and computes `findPkgAndTypeName`
for it, but the loop body only ever skips to the next field: the
computed (package, type-name) pairs are discarded (the `TODO` in
`ast.go`), and neither `ty.Package` nor `ty.EmbeddedTypes` is ever
assigned. -/
def processTypesRecord (spec : TypeSpec) : TypeInfo :=
  let ty := TypeInfo.mk spec.name "" []
  match spec.type with
  | Expr.structType _fields => ty
  | _ => ty

/-- `processTypes` of `ast.go`: reads only `decl.Specs[0]`, builds its
record, and registers it under the lowercase type name.  The `imports`
argument is received (it is passed by `Process`) but, like the computed
embedded-field pairs, never used. -/
def processTypes (types : List (String × TypeInfo)) (specs : List TypeSpec)
    (_imports : Option (List (String × String))) : List (String × TypeInfo) :=
  match specs with
  | [] => types
  | spec :: _ => mapInsert types (strToLower spec.name) (processTypesRecord spec)

/-- C9: in a grouped type declaration with two or more specifications,
only the first specification is registered in the package's
name-to-type-record mapping; each later type in the block is silently
dropped (its name is absent from the result whenever it was absent
before and differs from the first name). -/
theorem processTypes_first_spec_only (s1 s2 : TypeSpec)
    (rest : List TypeSpec) (imports : Option (List (String × String)))
    (types : List (String × TypeInfo))
    (hne : strToLower s1.name ≠ strToLower s2.name)
    (habs : mapLookup types (strToLower s2.name) = none) :
    processTypes types (s1 :: s2 :: rest) imports
      = mapInsert types (strToLower s1.name) (processTypesRecord s1) ∧
    mapLookup (processTypes types (s1 :: s2 :: rest) imports)
        (strToLower s2.name) = none := by
  refine ⟨rfl, ?_⟩
  simpa [processTypes, mapInsert, hne] using habs

/-- Witness for C9: a two-spec `type ( A ...; B ... )` block over an
empty mapping registers `a` and drops `b`. -/
theorem processTypes_first_spec_only_witness :
    (strToLower (TypeSpec.mk "A" (Expr.structType [])).name
        ≠ strToLower (TypeSpec.mk "B" (Expr.structType [])).name ∧
     mapLookup ([] : List (String × TypeInfo))
        (strToLower (TypeSpec.mk "B" (Expr.structType [])).name) = none) ∧
    mapLookup
        (processTypes []
          [TypeSpec.mk "A" (Expr.structType []),
           TypeSpec.mk "B" (Expr.structType [])] none)
        (strToLower (TypeSpec.mk "B" (Expr.structType [])).name) = none :=
  ⟨⟨by decide, rfl⟩,
   (processTypes_first_spec_only (TypeSpec.mk "A" (Expr.structType []))
     (TypeSpec.mk "B" (Expr.structType [])) [] none [] (by decide) rfl).2⟩

/-! ## Per-file processing (`Process`)

`Process` walks a file's declarations twice: first collecting imports
(each `import` block's resolution overwriting the `fileImports`
variable), then extracting types with whatever `fileImports` ended up
holding. -/

/-- The import-collection loop of `Process` over one file's
declarations: `fileImports` starts out nil and is overwritten by the
resolution of every `import` declaration encountered. -/
def collectFileImports (bi : String → String → Option String)
    (filePath : String) (st : ResolveState)
    (fileImports : Option (List (String × String))) :
    List Decl → ResolveState × Option (List (String × String))
  | [] => (st, fileImports)
  | d :: ds =>
    match d with
    | Decl.importDecl specs =>
      let r := processImports bi filePath st specs
      collectFileImports bi filePath r.1 (some r.2) ds
    | _ => collectFileImports bi filePath st fileImports ds

/-- The `import` blocks of a declaration list, in order. -/
def importBlocks (decls : List Decl) : List (List ImportSpec) :=
  decls.foldr
    (fun d acc =>
      match d with
      | Decl.importDecl specs => specs :: acc
      | _ => acc) []

/-- Running the import-collection loop on the import blocks alone. -/
def runImportBlocks (bi : String → String → Option String)
    (filePath : String) (st : ResolveState)
    (fileImports : Option (List (String × String))) :
    List (List ImportSpec) → ResolveState × Option (List (String × String))
  | [] => (st, fileImports)
  | b :: bs =>
    let r := processImports bi filePath st b
    runImportBlocks bi filePath r.1 (some r.2) bs

theorem collectFileImports_eq_runImportBlocks
    (bi : String → String → Option String) (filePath : String) :
    ∀ (ds : List Decl) (st : ResolveState)
      (fi : Option (List (String × String))),
      collectFileImports bi filePath st fi ds
        = runImportBlocks bi filePath st fi (importBlocks ds) := by
  intro ds
  induction ds with
  | nil => intro st fi; rfl
  | cons d ds ih =>
    intro st fi
    cases d with
    | importDecl specs =>
      simp [collectFileImports, importBlocks, runImportBlocks, ih]
    | typeDecl specs =>
      simp [collectFileImports, importBlocks, runImportBlocks, ih]
    | otherDecl =>
      simp [collectFileImports, importBlocks, runImportBlocks, ih]

theorem runImportBlocks_append_last
    (bi : String → String → Option String) (filePath : String)
    (b : List ImportSpec) :
    ∀ (bs : List (List ImportSpec)) (st : ResolveState)
      (fi : Option (List (String × String))),
      runImportBlocks bi filePath st fi (bs ++ [b])
        = ((processImports bi filePath
              (runImportBlocks bi filePath st fi bs).1 b).1,
           some (processImports bi filePath
              (runImportBlocks bi filePath st fi bs).1 b).2) := by
  intro bs
  induction bs with
  | nil => intro st fi; rfl
  | cons b' bs ih => intro st fi; simp [runImportBlocks, ih]

/-- C10: when a file contains two or more import declaration blocks,
the `fileImports` value handed to type extraction is exactly the
resolution of the last block (earlier blocks influence only the
process-wide cache state threaded through): their alias mappings are
discarded, because each block's resolution overwrites the previous
one. -/
theorem last_import_block_only (bi : String → String → Option String)
    (filePath : String) (st : ResolveState) (decls : List Decl)
    (bs : List (List ImportSpec)) (b : List ImportSpec)
    (h : importBlocks decls = bs ++ [b]) :
    (collectFileImports bi filePath st none decls).2
      = some (processImports bi filePath
          (runImportBlocks bi filePath st none bs).1 b).2 := by
  rw [collectFileImports_eq_runImportBlocks, h, runImportBlocks_append_last]

/-- Witness for C10: two one-spec import blocks with explicit aliases;
the collected `fileImports` is the last block's map, which lacks the
first block's alias. -/
theorem last_import_block_only_witness :
    importBlocks
        [Decl.importDecl [ImportSpec.mk (some "x") "\"a/x\""],
         Decl.importDecl [ImportSpec.mk (some "y") "\"a/y\""]]
      = [[ImportSpec.mk (some "x") "\"a/x\""]]
          ++ [[ImportSpec.mk (some "y") "\"a/y\""]] ∧
    (collectFileImports (fun _ _ => none) "/src/p" (ResolveState.mk [] 0) none
        [Decl.importDecl [ImportSpec.mk (some "x") "\"a/x\""],
         Decl.importDecl [ImportSpec.mk (some "y") "\"a/y\""]]).2
      = some (processImports (fun _ _ => none) "/src/p"
          (runImportBlocks (fun _ _ => none) "/src/p" (ResolveState.mk [] 0)
            none [[ImportSpec.mk (some "x") "\"a/x\""]]).1
          [ImportSpec.mk (some "y") "\"a/y\""]).2 :=
  ⟨by decide,
   last_import_block_only (fun _ _ => none) "/src/p" (ResolveState.mk [] 0)
     [Decl.importDecl [ImportSpec.mk (some "x") "\"a/x\""],
      Decl.importDecl [ImportSpec.mk (some "y") "\"a/y\""]]
     [[ImportSpec.mk (some "x") "\"a/x\""]]
     [ImportSpec.mk (some "y") "\"a/y\""] (by decide)⟩

/-! ## Package processing (`program.Process`) -/

/-- Go `path/filepath.Base` for slash-separated paths: the last
non-empty path element; `"/"` for an all-separator path; `"."` for the
empty path. -/
def baseName (s : String) : String :=
  if s = "" then "."
  else
    match ((splitOnSlash s.toList).filter (fun p => !p.isEmpty)).getLast? with
    | some p => String.mk p
    | none => "/"

/-- The type-collection loop of `Process` over one file's declarations:
each `type` block is handed to `processTypes` together with the file's
collected imports. -/
def processFileTypes (fileImports : Option (List (String × String))) :
    List (String × TypeInfo) → List Decl → List (String × TypeInfo)
  | ts, [] => ts
  | ts, d :: ds =>
    match d with
    | Decl.typeDecl specs =>
      processFileTypes fileImports (processTypes ts specs fileImports) ds
    | _ => processFileTypes fileImports ts ds

/-- The per-file body of `Process`: append the file's base name to the
package's file list, collect the file's imports (overwriting per import
block), then extract the file's types. -/
def processPackageFiles (bi : String → String → Option String)
    (st : ResolveState) (pi : PackageInfo) :
    List (String × GoFile) → ResolveState × PackageInfo
  | [] => (st, pi)
  | (fname, f) :: rest =>
    let pi1 := { pi with Files := pi.Files ++ [baseName fname] }
    let r := collectFileImports bi pi1.FilePath st none f.decls
    let pi2 := { pi1 with Types := processFileTypes r.2 pi1.Types f.decls }
    processPackageFiles bi r.1 pi2 rest

/-- `Process` applied to one found package: `pkgInfo.Types` is reset to
the empty map and every file of the package is processed in turn. -/
def processPackage (bi : String → String → Option String)
    (st : ResolveState) (p : PackageInfo) : ResolveState × PackageInfo :=
  processPackageFiles bi st { p with Types := [] } p.Pkg.files

/-- `program.FindPackage`: first package whose declared name matches. -/
def Program.FindPackage (prg : Program) (packageName : String) :
    Option PackageInfo :=
  prg.Packages.find? (fun p => p.Pkg.name == packageName)

/-- `program.Process`: error when the package is absent, otherwise the
found package is processed in place. -/
def Program.Process (bi : String → String → Option String)
    (st : ResolveState) (prg : Program) (packageName : String) :
    ResolveState × Program × Option String :=
  match prg.FindPackage packageName with
  | none => (st, prg, some ("package: " ++ packageName ++ " not found"))
  | some p =>
    let r := processPackage bi st p
    (r.1,
     { prg with
        Packages := prg.Packages.map
          (fun q => if q.Pkg.name == packageName then r.2 else q) },
     none)

/-! ## C8: every extracted Type Record has no embedding edges -/

theorem processTypesRecord_embeds (spec : TypeSpec) :
    (processTypesRecord spec).EmbeddedTypes = [] := by
  unfold processTypesRecord
  cases spec.type <;> rfl

/-- Records visible after `processTypes` are either freshly inserted
(with no embedded types) or were already in the mapping. -/
theorem processTypes_embeds (ts : List (String × TypeInfo))
    (specs : List TypeSpec) (imports : Option (List (String × String)))
    (k : String) (t : TypeInfo)
    (h : mapLookup (processTypes ts specs imports) k = some t) :
    t.EmbeddedTypes = [] ∨ mapLookup ts k = some t := by
  cases specs with
  | nil => exact Or.inr h
  | cons spec rest =>
    simp only [processTypes, mapInsert, mapLookup_cons] at h
    by_cases hk : strToLower spec.name = k
    · simp only [hk, if_pos rfl] at h
      cases h
      exact Or.inl (processTypesRecord_embeds spec)
    · simp only [if_neg hk] at h
      exact Or.inr h

/-- The empty-embeds invariant on a type mapping. -/
def AllEmbedsEmpty (ts : List (String × TypeInfo)) : Prop :=
  ∀ k t, mapLookup ts k = some t → t.EmbeddedTypes = []

theorem processFileTypes_embeds
    (fileImports : Option (List (String × String))) :
    ∀ (ds : List Decl) (ts : List (String × TypeInfo)),
      AllEmbedsEmpty ts → AllEmbedsEmpty (processFileTypes fileImports ts ds) := by
  intro ds
  induction ds with
  | nil => intro ts hts; exact hts
  | cons d ds ih =>
    intro ts hts
    cases d with
    | typeDecl specs =>
      refine ih _ (fun k t h => ?_)
      rcases processTypes_embeds ts specs fileImports k t h with h' | h'
      · exact h'
      · exact hts k t h'
    | importDecl specs => exact ih _ hts
    | otherDecl => exact ih _ hts

theorem processPackageFiles_embeds (bi : String → String → Option String) :
    ∀ (files : List (String × GoFile)) (st : ResolveState)
      (pi : PackageInfo), AllEmbedsEmpty pi.Types →
      AllEmbedsEmpty (processPackageFiles bi st pi files).2.Types := by
  intro files
  induction files with
  | nil => intro st pi hpi; exact hpi
  | cons nf rest ih =>
    intro st pi hpi
    obtain ⟨fname, f⟩ := nf
    exact ih _ _ (processFileTypes_embeds _ _ _ hpi)

/-- C8: every Type Record produced by type extraction has an empty
list of embedding edges, regardless of how many anonymous fields its
struct declaration contains: the extractor discards the computed
(package, type-name) pairs and never attaches them to the record. -/
theorem processed_types_have_no_embeds (bi : String → String → Option String)
    (st : ResolveState) (p : PackageInfo) (k : String) (t : TypeInfo)
    (h : mapLookup (processPackage bi st p).2.Types k = some t) :
    t.EmbeddedTypes = [] :=
  processPackageFiles_embeds bi p.Pkg.files st { p with Types := [] }
    (fun _ _ hx => by simp at hx) k t h

/-- A concrete package for the C8 witness: one file declaring a struct
type with an anonymous (embedded) field. -/
def c8Package : PackageInfo :=
  { Pkg :=
      { name := "controllers",
        files :=
          [("app.go",
            ⟨[Decl.typeDecl
                [TypeSpec.mk "T" (Expr.structType [([], Expr.ident "M")])]]⟩)] },
    Types := [], Path := "", FilePath := "/src/app/controllers",
    Files := [] }

/-- Witness for C8: the record extracted for `T` (which embeds `M` in
the source text) carries no embedding edges. -/
theorem processed_types_have_no_embeds_witness :
    mapLookup (processPackage (fun _ _ => none) (ResolveState.mk [] 0)
        c8Package).2.Types (strToLower "T")
      = some (TypeInfo.mk "T" "" []) ∧
    (TypeInfo.mk "T" "" []).EmbeddedTypes = [] :=
  ⟨rfl,
   processed_types_have_no_embeds (fun _ _ => none) (ResolveState.mk [] 0)
     c8Package (strToLower "T") (TypeInfo.mk "T" "" []) rfl⟩

/-! ## The directory walk of `loadProgram`

The filesystem is a finite tree of named entries; a source file node
carries the package identifier its text declares and its parsed
declarations (parse errors are not modelled: every file parses, which
is the regime all the walk-level claims quantify over).  `ess.Walk`
follows `filepath.Walk` semantics: the root is visited first, then each
directory's entries recursively; a callback returning `SkipDir` on a
directory prunes its subtree.  The exclusion matcher is an opaque
predicate on base names, as `ess.Excludes.Match` is to `loadProgram`. -/

inductive FsEntry where
  | file (name : String) (pkgName : String) (contents : GoFile)
  | dir (name : String) (entries : List FsEntry)

def FsEntry.entryName : FsEntry → String
  | .file n _ _ => n
  | .dir n _ => n

/-- Add a parsed file to the package map `parser.ParseDir` builds,
grouping files by their declared package identifier. -/
def addFileToPkgs : List (String × AstPackage) → String → String × GoFile →
    List (String × AstPackage)
  | [], pkgName, f => [(pkgName, ⟨pkgName, [f]⟩)]
  | (k, p) :: rest, pkgName, f =>
    if k = pkgName then (k, ⟨p.name, p.files ++ [f]⟩) :: rest
    else (k, p) :: addFileToPkgs rest pkgName f

/-- `parser.ParseDir` with the filter `loadProgram` passes it: parse
every file entry of the directory whose name the exclusion matcher does
not match, grouped by declared package identifier. -/
def parseDirAux (excludes : String → Bool)
    (pkgs : List (String × AstPackage)) :
    List FsEntry → List (String × AstPackage)
  | [] => pkgs
  | e :: es =>
    match e with
    | .file fname pkgName contents =>
      if excludes fname then parseDirAux excludes pkgs es
      else parseDirAux excludes (addFileToPkgs pkgs pkgName (fname, contents)) es
    | .dir _ _ => parseDirAux excludes pkgs es

def parseDir (excludes : String → Bool) (entries : List FsEntry) :
    List (String × AstPackage) :=
  parseDirAux excludes [] entries

/-- `stripGoPath` of `ast.go`: find the first occurrence of the
substring `"src"` in the package's file path, slice everything up to
and including it plus one further character away, and clean the
result.  When `"src"` is absent, `strings.Index` yields `-1` and the
slice starts at byte 3.  (Go would panic if `idx+4` exceeded the
length; the model's `drop` yields the empty string there.) -/
def stripGoPath (pkgFilePath : String) : String :=
  let idx := strIndex pkgFilePath "src"
  filepathClean (String.mk (pkgFilePath.toList.drop (idx + 4).toNat))

mutual

/-- The walk callback of `loadProgram` applied to one visited entry
(whose absolute path is `srcPath`): an entry whose base name the
exclusion matcher matches is skipped — for a directory the whole
subtree is pruned (`filepath.SkipDir`); a non-directory entry yields
nothing; an empty directory is pruned; any other directory is parsed,
validated into at most one `packageInfo` (whose `FilePath` is the
directory and whose `Path` is `stripGoPath` of it), and then its
entries are visited. -/
def walkLoad (excludes : String → Bool) (srcPath : String) :
    FsEntry → List PackageInfo
  | .file _ _ _ => []
  | .dir dname entries =>
    if excludes dname then []
    else if entries.isEmpty then []
    else
      let own :=
        match validatePkgAndGet (parseDir excludes entries) srcPath with
        | (some pkg, _) =>
          [{ pkg with FilePath := srcPath, Path := stripGoPath srcPath }]
        | (none, _) => []
      own ++ walkLoadList excludes srcPath entries

def walkLoadList (excludes : String → Bool) (parentPath : String) :
    List FsEntry → List PackageInfo
  | [] => []
  | e :: es =>
    walkLoad excludes (parentPath ++ "/" ++ e.entryName) e
      ++ walkLoadList excludes parentPath es

end

/-- `loadProgram` of `ast.go` over the filesystem model (the error
accumulation, which no claim under test reads, is not carried): walk
the root and collect the discovered packages. -/
def loadProgram (excludes : String → Bool) (path : String)
    (root : FsEntry) : Program :=
  { Path := path, Packages := walkLoad excludes path root }

/-- Adding a non-excluded file keeps every grouped file non-excluded. -/
theorem addFileToPkgs_files (excludes : String → Bool)
    (fname pkgName : String) (c : GoFile)
    (hex : excludes fname = false) :
    ∀ (pkgs : List (String × AstPackage)),
      (∀ pn p, (pn, p) ∈ pkgs → ∀ nf ∈ p.files, excludes nf.1 = false) →
      ∀ pn p, (pn, p) ∈ addFileToPkgs pkgs pkgName (fname, c) →
        ∀ nf ∈ p.files, excludes nf.1 = false := by
  intro pkgs
  induction pkgs with
  | nil =>
    intro _ pn p hp nf hnf
    simp only [addFileToPkgs, List.mem_singleton, Prod.mk.injEq] at hp
    obtain ⟨rfl, rfl⟩ := hp
    simp only [List.mem_singleton] at hnf
    subst hnf
    exact hex
  | cons q qs ihq =>
    intro hpkgs pn p hp nf hnf
    obtain ⟨qk, qp⟩ := q
    simp only [addFileToPkgs] at hp
    by_cases hk : qk = pkgName
    · simp only [if_pos hk, List.mem_cons, Prod.mk.injEq] at hp
      rcases hp with ⟨h1, rfl⟩ | hp
      · rcases List.mem_append.mp hnf with hnf' | hnf'
        · exact hpkgs qk qp (List.mem_cons_self _ _) nf hnf'
        · simp only [List.mem_singleton] at hnf'
          subst hnf'
          exact hex
      · exact hpkgs pn p (List.mem_cons_of_mem _ hp) nf hnf
    · simp only [if_neg hk, List.mem_cons, Prod.mk.injEq] at hp
      rcases hp with ⟨h1, rfl⟩ | hp
      · exact hpkgs _ _ (List.mem_cons_self _ _) nf hnf
      · exact ihq (fun pn' p' hp' => hpkgs pn' p' (List.mem_cons_of_mem _ hp'))
          pn p hp nf hnf

/-- Excluded file entries never reach the parsed package map. -/
theorem parseDirAux_excluded (excludes : String → Bool) :
    ∀ (es : List FsEntry) (pkgs : List (String × AstPackage)),
      (∀ pn p, (pn, p) ∈ pkgs → ∀ nf ∈ p.files, excludes nf.1 = false) →
      ∀ pn p, (pn, p) ∈ parseDirAux excludes pkgs es →
        ∀ nf ∈ p.files, excludes nf.1 = false := by
  intro es
  induction es with
  | nil => intro pkgs hpkgs; exact hpkgs
  | cons e es ih =>
    intro pkgs hpkgs
    cases e with
    | dir _ _ => exact ih pkgs hpkgs
    | file fname pkgName contents =>
      by_cases hex : excludes fname = true
      · simpa [parseDirAux, hex] using ih pkgs hpkgs
      · have hex' : excludes fname = false := by simpa using hex
        simp only [parseDirAux, hex', Bool.false_eq_true, ite_false]
        exact ih _ (addFileToPkgs_files excludes fname pkgName contents hex'
          pkgs hpkgs)

/-- C7: during the walk, an entry whose base name matches the exclusion
set is skipped: an excluded directory's entire subtree is pruned and
never descended into, so no Package Model is constructed for it or any
of its descendants; an excluded file contributes no package and is
omitted from its directory's parse. -/
theorem excluded_entries_pruned (excludes : String → Bool)
    (srcPath dname : String) (entries : List FsEntry)
    (h : excludes dname = true) :
    walkLoad excludes srcPath (.dir dname entries) = [] ∧
    (∀ fname pkgName contents,
      walkLoad excludes srcPath (.file fname pkgName contents) = []) ∧
    (∀ es pn p, (pn, p) ∈ parseDir excludes es →
      ∀ nf ∈ p.files, excludes nf.1 = false) := by
  refine ⟨by simp [walkLoad, h], fun _ _ _ => rfl, fun es pn p hp => ?_⟩
  exact parseDirAux_excluded excludes es [] (by simp) pn p hp

/-- Witness for C7: a concrete excluded directory name. -/
theorem excluded_entries_pruned_witness :
    (fun n => n == "vendor") "vendor" = true ∧
    walkLoad (fun n => n == "vendor") "/app/vendor"
        (.dir "vendor"
          [.file "v.go" "vendored" ⟨[]⟩]) = [] :=
  ⟨by decide,
   (excluded_entries_pruned (fun n => n == "vendor") "/app/vendor" "vendor"
     [.file "v.go" "vendored" ⟨[]⟩] (by decide)).1⟩

/-! ## C3: what `stripGoPath` actually strips

The spec says the logical path is the absolute directory path with the
analysis-root prefix stripped; the code instead slices everything
through the first occurrence of the literal substring `"src"` plus one
further character (the GOPATH `src` marker), never consulting the
analysis root. -/

/-- The spec's description of the logical-path computation: strip the
analysis-root prefix from the absolute directory path and normalize
separators. -/
def rootStrippedLogicalPath (root dirPath : String) : String :=
  if root.toList.isPrefixOf dirPath.toList then
    filepathClean (String.mk (dirPath.toList.drop root.toList.length))
  else filepathClean dirPath

/-- C3 counterexample: for the analysis root `/app/web` and its
subdirectory `/app/web/controllers` (no `src` component anywhere), the
code's logical path is `p/web/controllers` — the first three characters
are sliced off blindly — which differs from the root-stripped path
`/controllers` that the claim prescribes. -/
theorem stripGoPath_ignores_root :
    stripGoPath "/app/web/controllers" = "p/web/controllers" ∧
    rootStrippedLogicalPath "/app/web" "/app/web/controllers"
      = "/controllers" ∧
    stripGoPath "/app/web/controllers"
      ≠ rootStrippedLogicalPath "/app/web" "/app/web/controllers" := by
  refine ⟨rfl, rfl, ?_⟩
  decide

theorem indexOfSub_of_prefix (sub s : List Char)
    (h : sub.isPrefixOf s = true) : indexOfSub sub s = some 0 := by
  cases s with
  | nil => simp [indexOfSub, h]
  | cons c t => simp [indexOfSub, h]

/-- When no occurrence of `sub` starts inside `p`, the first occurrence
of `sub` in `p ++ sub ++ r` is exactly at `p.length`. -/
theorem indexOfSub_first_at (sub r : List Char) :
    ∀ p : List Char,
      (∀ i, i < p.length →
        sub.isPrefixOf ((p ++ (sub ++ r)).drop i) = false) →
      indexOfSub sub (p ++ (sub ++ r)) = some p.length := by
  intro p
  induction p with
  | nil =>
    intro _
    simp only [List.nil_append, List.length_nil]
    exact indexOfSub_of_prefix sub (sub ++ r)
      (by simp [List.isPrefixOf_iff_prefix, List.prefix_append])
  | cons c p ih =>
    intro h
    have h0 : sub.isPrefixOf (c :: (p ++ (sub ++ r))) = false := by
      simpa using h 0 (Nat.succ_pos _)
    have hrec := ih (fun i hi => by
      simpa [List.drop_succ_cons] using h (i + 1) (Nat.succ_lt_succ hi))
    simp only [List.cons_append, indexOfSub, List.append_eq, h0,
      Bool.false_eq_true, ite_false, hrec, Option.map_some', List.length_cons]

/-- C3 amended: the model's logical path is the directory's absolute
path with everything up to and including its first `"src"` substring
occurrence and one following separator character removed (the GOPATH
`src` marker), then cleaned — the analysis root is not consulted.  For
a GOPATH-shaped path `pre ++ "src/" ++ rest` whose first `"src"`
occurrence is the marker and whose remainder is already clean, the
logical path is exactly `rest`. -/
theorem stripGoPath_strips_first_src (pre rest : String)
    (hfirst : ∀ i, i < pre.toList.length →
      ("src".toList.isPrefixOf ((pre ++ "src/" ++ rest).toList.drop i))
        = false)
    (hclean : filepathClean rest = rest) :
    stripGoPath (pre ++ "src/" ++ rest) = rest := by
  have hdata : (pre ++ "src/" ++ rest).toList
      = pre.toList ++ ("src".toList ++ ('/' :: rest.toList)) := by
    show (pre ++ "src/" ++ rest).data
      = pre.data ++ ("src".data ++ ('/' :: rest.data))
    simp [String.data_append]
  have hidx : indexOfSub "src".toList (pre ++ "src/" ++ rest).toList
      = some pre.toList.length := by
    rw [hdata]
    refine indexOfSub_first_at _ _ _ (fun i hi => ?_)
    rw [← hdata]
    exact hfirst i hi
  have hnat : ((pre.toList.length : Int) + 4).toNat
      = pre.toList.length + 4 := by omega
  have hdrop : (pre ++ "src/" ++ rest).toList.drop (pre.toList.length + 4)
      = rest.toList := by
    rw [hdata]
    have hassoc : pre.toList ++ ("src".toList ++ ('/' :: rest.toList))
        = (pre.toList ++ ('s' :: 'r' :: 'c' :: '/' :: [])) ++ rest.toList := by
      simp
    rw [hassoc]
    exact List.drop_left' (by simp)
  unfold stripGoPath strIndex
  rw [hidx]
  simp only [hnat, hdrop]
  have hmk : String.mk rest.toList = rest := rfl
  rw [hmk, hclean]

/-- Witness for C3's amended statement: a GOPATH-shaped concrete path. -/
theorem stripGoPath_strips_first_src_witness :
    ((∀ i, i < "/home/u/go/".toList.length →
      ("src".toList.isPrefixOf
        ((("/home/u/go/" ++ "src/" ++ "app/controllers")).toList.drop i))
        = false) ∧
     filepathClean "app/controllers" = "app/controllers") ∧
    stripGoPath ("/home/u/go/" ++ "src/" ++ "app/controllers")
      = "app/controllers" :=
  ⟨⟨by decide, rfl⟩,
   stripGoPath_strips_first_src "/home/u/go/" "app/controllers"
     (by decide) rfl⟩

/-! ## The embedding-reachability query

`buildApp` (build.go) calls `prg.FindTypeByEmbeddedType(".Controller"
fully qualified)` to collect every type whose embedding graph reaches
the marker; that method's definition is not among the available source
files, so the query is modelled from the spec and run against the
records the available code builds. -/

/-- Modelled from the spec: the marker is addressed by its fully
qualified name, and a record's qualified name is its owning package
joined to its declared name. -/
def qualifiedName (t : TypeInfo) : String :=
  t.Package ++ "." ++ t.Name

mutual

/-- Modelled from the spec: `findTypesEmbedding`'s traversal of one
record's embedding edges — a record reaches the marker when some
embedded record's qualified name equals the marker or that embedded
record's own edges reach it.  (The spec's cycle guard has nothing to
cut here: record values in the embedding are finite trees.) -/
def embedsReach (marker : String) : TypeInfo → Bool
  | .mk _ _ embeds => embedsReachList marker embeds

def embedsReachList (marker : String) : List TypeInfo → Bool
  | [] => false
  | e :: es =>
    qualifiedName e == marker || embedsReach marker e
      || embedsReachList marker es

end

/-- Modelled from the spec: `findTypesEmbedding(program, marker)` (the
source's `FindTypeByEmbeddedType`, absent from the available files) —
every Type Record of every Package Model whose embedding graph reaches
the marker, in package order then record order. -/
def findTypesEmbedding (prg : Program) (marker : String) : List TypeInfo :=
  (prg.Packages.map
    (fun p => (p.Types.map Prod.snd).filter (embedsReach marker))).flatten

/-- The failing input for C1: one directory `controllers` holding one
file that declares `type M struct{}` and `type T struct{ M }` — a
direct, same-package, by-value embedding of the marker `M`. -/
def c1Tree : FsEntry :=
  .dir "controllers"
    [.file "app.go" "controllers"
      ⟨[Decl.typeDecl [TypeSpec.mk "M" (Expr.structType [])],
        Decl.typeDecl
          [TypeSpec.mk "T" (Expr.structType [([], Expr.ident "M")])]]⟩]

/-- The program the code builds from `c1Tree` and then processes. -/
def c1Program : Program :=
  (Program.Process (fun _ _ => none) (ResolveState.mk [] 0)
    (loadProgram (fun _ => false) "/app/controllers" c1Tree)
    "controllers").2.1

/-- C1 evaluated at the failing input: the code extracts a record for
`T` that carries no embedding edges, so the embedding-reachability
query returns the empty result set — it does not include `T`, although
`T` embeds the marker `M` directly, by value, in the same package. -/
theorem findTypesEmbedding_misses_direct_embed :
    (c1Program.Packages.map
        (fun p => mapLookup p.Types (strToLower "T")))
      = [some (TypeInfo.mk "T" "" [])] ∧
    findTypesEmbedding c1Program "controllers.M" = [] ∧
    findTypesEmbedding c1Program ".M" = [] :=
  ⟨rfl, rfl, rfl⟩

end AahTool
